import Mathlib

/-!
Verification of the analytical core of the threat-intelligence dashboard:
graph construction with thresholding and deduplication, deterministic
force-directed layout, feature normalization, centroid-based clustering,
and the composite risk score, as implemented in `dashboard.py` and
`dashboard/dashboard.py`.

Numeric values are modelled by rationals.  The square root used by the
standard scaler and by the layout engine is abstracted as a function
parameter, since no property below depends on its values.
-/

namespace Dashboard

/-- A cross-border spillover edge row as selected by `load_network_data`:
source country, target country, attack-count weight, shared-group count,
and intensity score. -/
structure SpillEdge where
  source : String
  target : String
  weight : ℚ
  groups : ℚ
  intensity : ℚ
deriving DecidableEq

/-- The attribute record carried by one arc of the directed graph,
mirroring the keyword arguments passed to `G.add_edge`. -/
structure EdgeAttrs where
  weight : ℚ
  groups : ℚ
  intensity : ℚ
deriving DecidableEq

/-- The attributes an edge row contributes to its arc. -/
def attrsOf (e : SpillEdge) : EdgeAttrs := ⟨e.weight, e.groups, e.intensity⟩

/-- A directed graph with attributed arcs, modelling the `networkx.DiGraph`
built by `create_network_graph` / `network_graph`: nodes in insertion order
without repetition, and an association list from ordered node pairs to arc
attributes. -/
structure DiGraph where
  nodes : List String
  edges : List ((String × String) × EdgeAttrs)
deriving DecidableEq

/-- The empty graph. -/
def DiGraph.empty : DiGraph := ⟨[], []⟩

/-- Append a node if it is not already present; `add_edge` silently adds
unknown endpoints to the node set. -/
def addNode (ns : List String) (n : String) : List String :=
  if n ∈ ns then ns else ns ++ [n]

/-- Insert or overwrite the attribute record stored under an ordered pair;
`add_edge` on an existing arc overwrites its attribute dictionary. -/
def setEdge : List ((String × String) × EdgeAttrs) → String × String → EdgeAttrs →
    List ((String × String) × EdgeAttrs)
  | [], k, a => [(k, a)]
  | (k', a') :: es, k, a =>
      if k' = k then (k, a) :: es else (k', a') :: setEdge es k a

/-- One iteration of the edge-insertion loop: `G.add_edge(source, target,
weight=…, groups=…, intensity=…)`. -/
def addEdge (g : DiGraph) (e : SpillEdge) : DiGraph :=
  ⟨addNode (addNode g.nodes e.source) e.target,
   setEdge g.edges (e.source, e.target) (attrsOf e)⟩

/-- The rows kept by the minimum-weight filter
(`WHERE cf.total_spillover_attacks > 5` in `load_network_data`, with the
threshold as a parameter). -/
def retained (edges : List SpillEdge) (w : ℚ) : List SpillEdge :=
  edges.filter (fun e => decide (w < e.weight))

/-- Graph construction: filter the edge rows by the minimum-weight
threshold, then insert each retained row in order. -/
def build (edges : List SpillEdge) (w : ℚ) : DiGraph :=
  (retained edges w).foldl addEdge DiGraph.empty

/-- Look up the attributes stored under an ordered pair. -/
def lookupEdge (es : List ((String × String) × EdgeAttrs)) (key : String × String) :
    Option EdgeAttrs :=
  (es.find? (fun p => decide (p.1 = key))).map Prod.snd

/-- The attributes of the arc from `s` to `t`, if present. -/
def DiGraph.findAttr (g : DiGraph) (s t : String) : Option EdgeAttrs :=
  lookupEdge g.edges (s, t)

/-- Whether the graph has an arc from `s` to `t`. -/
def DiGraph.hasArc (g : DiGraph) (s t : String) : Bool :=
  (g.findAttr s t).isSome

/-- The composite risk score of the predictive tab:
`incidents_momentum * 0.4 + incidents_volatility * 0.3 +
prior_year_spike * 0.3`. -/
def riskScore (momentum volatility spike : ℚ) : ℚ :=
  momentum * 0.4 + volatility * 0.3 + spike * 0.3

section GraphLemmas

theorem mem_addNode {m n : String} {ns : List String} :
    m ∈ addNode ns n ↔ m ∈ ns ∨ m = n := by
  unfold addNode
  by_cases h : n ∈ ns
  · rw [if_pos h]
    constructor
    · exact fun hm => Or.inl hm
    · rintro (hm | rfl)
      · exact hm
      · exact h
  · rw [if_neg h]
    simp [List.mem_append]

theorem mem_nodes_addEdge {g : DiGraph} {e : SpillEdge} {m : String} :
    m ∈ (addEdge g e).nodes ↔ m ∈ g.nodes ∨ m = e.source ∨ m = e.target := by
  simp [addEdge, mem_addNode, or_assoc]

theorem mem_nodes_foldl (l : List SpillEdge) (g : DiGraph) (m : String) :
    m ∈ (l.foldl addEdge g).nodes ↔
      m ∈ g.nodes ∨ ∃ e ∈ l, m = e.source ∨ m = e.target := by
  induction l generalizing g with
  | nil => simp
  | cons e l ih =>
      rw [List.foldl_cons, ih]
      simp only [mem_nodes_addEdge, List.mem_cons]
      constructor
      · rintro ((h | h | h) | ⟨e', he', h⟩)
        · exact Or.inl h
        · exact Or.inr ⟨e, Or.inl rfl, Or.inl h⟩
        · exact Or.inr ⟨e, Or.inl rfl, Or.inr h⟩
        · exact Or.inr ⟨e', Or.inr he', h⟩
      · rintro (h | ⟨e', (rfl | he'), h⟩)
        · exact Or.inl (Or.inl h)
        · rcases h with h | h
          · exact Or.inl (Or.inr (Or.inl h))
          · exact Or.inl (Or.inr (Or.inr h))
        · exact Or.inr ⟨e', he', h⟩

theorem mem_nodes_build (edges : List SpillEdge) (w : ℚ) (m : String) :
    m ∈ (build edges w).nodes ↔
      ∃ e ∈ edges, w < e.weight ∧ (m = e.source ∨ m = e.target) := by
  rw [build, mem_nodes_foldl]
  simp only [DiGraph.empty, List.not_mem_nil, false_or, retained, List.mem_filter,
    decide_eq_true_iff]
  constructor
  · rintro ⟨e, ⟨he, hw⟩, h⟩
    exact ⟨e, he, hw, h⟩
  · rintro ⟨e, he, hw, h⟩
    exact ⟨e, ⟨he, hw⟩, h⟩

theorem lookupEdge_setEdge_self (es : List ((String × String) × EdgeAttrs))
    (k : String × String) (a : EdgeAttrs) :
    lookupEdge (setEdge es k a) k = some a := by
  induction es with
  | nil => simp [setEdge, lookupEdge, List.find?]
  | cons p es ih =>
      obtain ⟨k', a'⟩ := p
      by_cases h : k' = k
      · simp [setEdge, h, lookupEdge, List.find?]
      · simp only [setEdge, if_neg h]
        simpa [lookupEdge, List.find?, h] using ih

theorem lookupEdge_setEdge_ne (es : List ((String × String) × EdgeAttrs))
    (k k' : String × String) (a : EdgeAttrs) (h : k' ≠ k) :
    lookupEdge (setEdge es k a) k' = lookupEdge es k' := by
  induction es with
  | nil => simp [setEdge, lookupEdge, List.find?, Ne.symm h]
  | cons p es ih =>
      obtain ⟨k₀, a₀⟩ := p
      by_cases h₀ : k₀ = k
      · subst h₀
        simp [setEdge, lookupEdge, List.find?, Ne.symm h]
      · simp only [setEdge, if_neg h₀]
        by_cases h₁ : k₀ = k'
        · simp [lookupEdge, List.find?, h₁]
        · simpa [lookupEdge, List.find?, h₁] using ih

theorem findAttr_addEdge (g : DiGraph) (e : SpillEdge) (s t : String) :
    (addEdge g e).findAttr s t =
      if (e.source, e.target) = (s, t) then some (attrsOf e) else g.findAttr s t := by
  unfold DiGraph.findAttr addEdge
  by_cases h : (e.source, e.target) = (s, t)
  · rw [if_pos h]
    show lookupEdge (setEdge g.edges (e.source, e.target) (attrsOf e)) (s, t) = _
    rw [← h]
    exact lookupEdge_setEdge_self _ _ _
  · rw [if_neg h]
    exact lookupEdge_setEdge_ne _ _ _ _ (fun hc => h hc.symm)

/-- The arc-matching predicate used to describe last-write-wins below. -/
def arcMatch (s t : String) (e : SpillEdge) : Bool :=
  decide (e.source = s ∧ e.target = t)

theorem findAttr_foldl (l : List SpillEdge) (g : DiGraph) (s t : String) :
    (l.foldl addEdge g).findAttr s t =
      match (l.filter (arcMatch s t)).getLast? with
      | some e => some (attrsOf e)
      | none => g.findAttr s t := by
  induction l using List.reverseRecOn generalizing g with
  | nil => simp
  | append_singleton l e ih =>
      rw [List.foldl_append, List.foldl_cons, List.foldl_nil, findAttr_addEdge,
        List.filter_append]
      by_cases h : arcMatch s t e
      · have hs : e.source = s ∧ e.target = t := by
          simpa [arcMatch] using h
        simp [List.filter_cons, h, Prod.ext_iff, hs.1, hs.2]
      · have hs : ¬((e.source, e.target) = (s, t)) := by
          simp only [arcMatch, decide_eq_true_iff] at h
          simp [Prod.ext_iff]
          intro h1 h2
          exact h ⟨h1, h2⟩
        simp [List.filter_cons, h, hs, ih]

theorem findAttr_build (edges : List SpillEdge) (w : ℚ) (s t : String) :
    (build edges w).findAttr s t =
      ((retained edges w).filter (arcMatch s t)).getLast?.map attrsOf := by
  rw [build, findAttr_foldl]
  rcases h : ((retained edges w).filter (arcMatch s t)).getLast? with _ | e
  · simp [DiGraph.findAttr, DiGraph.empty, lookupEdge]
  · simp

theorem hasArc_build_iff (edges : List SpillEdge) (w : ℚ) (s t : String) :
    (build edges w).hasArc s t = true ↔
      ∃ e ∈ edges, e.source = s ∧ e.target = t ∧ w < e.weight := by
  rw [DiGraph.hasArc, findAttr_build, Option.isSome_map']
  rw [Option.isSome_iff_ne_none, Ne, List.getLast?_eq_none_iff]
  constructor
  · intro h
    rcases List.exists_mem_of_ne_nil _ h with ⟨e, he⟩
    simp only [List.mem_filter, retained, arcMatch, decide_eq_true_iff] at he
    exact ⟨e, he.1.1, he.2.1, he.2.2, he.1.2⟩
  · rintro ⟨e, he, hs, ht, hw⟩
    intro hnil
    have : e ∈ ((retained edges w).filter (arcMatch s t)) := by
      simp only [List.mem_filter, retained, arcMatch, decide_eq_true_iff]
      exact ⟨⟨he, hw⟩, hs, ht⟩
    rw [hnil] at this
    exact absurd this (List.not_mem_nil e)

/-- Keys of the association list after an insertion. -/
theorem keys_setEdge (es : List ((String × String) × EdgeAttrs))
    (k : String × String) (a : EdgeAttrs) :
    (setEdge es k a).map Prod.fst =
      if k ∈ es.map Prod.fst then es.map Prod.fst else es.map Prod.fst ++ [k] := by
  induction es with
  | nil => simp [setEdge]
  | cons p es ih =>
      obtain ⟨k₀, a₀⟩ := p
      by_cases h : k₀ = k
      · subst h
        simp [setEdge]
      · simp only [setEdge, if_neg h, List.map_cons, ih]
        by_cases hk : k ∈ es.map Prod.fst
        · simp [hk, Ne.symm h]
        · simp [hk, Ne.symm h]

theorem nodup_keys_setEdge (es : List ((String × String) × EdgeAttrs))
    (k : String × String) (a : EdgeAttrs)
    (h : (es.map Prod.fst).Nodup) : ((setEdge es k a).map Prod.fst).Nodup := by
  rw [keys_setEdge]
  by_cases hk : k ∈ es.map Prod.fst
  · rwa [if_pos hk]
  · rw [if_neg hk]
    rw [List.nodup_append]
    refine ⟨h, List.nodup_singleton _, ?_⟩
    intro x hx hx'
    rw [List.mem_singleton] at hx'
    subst hx'
    exact hk hx

theorem nodup_keys_foldl (l : List SpillEdge) (g : DiGraph)
    (h : (g.edges.map Prod.fst).Nodup) :
    (((l.foldl addEdge g).edges).map Prod.fst).Nodup := by
  induction l generalizing g with
  | nil => exact h
  | cons e l ih =>
      rw [List.foldl_cons]
      exact ih _ (nodup_keys_setEdge _ _ _ h)

theorem nodup_keys_build (edges : List SpillEdge) (w : ℚ) :
    (((build edges w).edges).map Prod.fst).Nodup := by
  exact nodup_keys_foldl _ _ (by simp [DiGraph.empty])

end GraphLemmas

/-- The missing-value policy of the clustering view: `df[features].fillna(0)`
replaces every missing entry with `0` and keeps every row. -/
def fillna (X : List (List (Option ℚ))) : List (List ℚ) :=
  X.map (fun row => row.map (fun o => o.getD 0))

/-- The values of feature column `j` across the row set (rows are
rectangular in the source; absent entries read as `0`). -/
def colVals (X : List (List ℚ)) (j : ℕ) : List ℚ :=
  X.map (fun r => r.getD j 0)

/-- Column mean, as computed by the standard scaler. -/
def meanQ (v : List ℚ) : ℚ := v.sum / (v.length : ℚ)

/-- Column population variance, as computed by the standard scaler. -/
def varQ (v : List ℚ) : ℚ :=
  ((v.map (fun x => (x - meanQ v) ^ 2)).sum) / (v.length : ℚ)

/-- Column scale: the standard deviation, except that a zero scale is
replaced by `1` (the scaler's zero-variance guard).  The square root is an
abstract parameter `sq`. -/
def scaleQ (sq : ℚ → ℚ) (v : List ℚ) : ℚ :=
  if varQ v = 0 then 1 else sq (varQ v)

/-- Standardize one row, column by column starting at index `j`. -/
def stdRow (sq : ℚ → ℚ) (X : List (List ℚ)) : ℕ → List ℚ → List ℚ
  | _, [] => []
  | j, x :: xs =>
      (x - meanQ (colVals X j)) / scaleQ sq (colVals X j) :: stdRow sq X (j + 1) xs

/-- The standard scaler's `fit_transform`: per column, subtract the column
mean and divide by the column scale. -/
def standardize (sq : ℚ → ℚ) (X : List (List ℚ)) : List (List ℚ) :=
  X.map (stdRow sq X 0)

/-- Squared Euclidean distance between two feature vectors. -/
def sqDist (x y : List ℚ) : ℚ :=
  ((x.zip y).map (fun p => (p.1 - p.2) ^ 2)).sum

/-- Index of the first minimal entry of a distance list (accumulator form). -/
def argminAux : List ℚ → ℕ → ℚ → ℕ → ℕ
  | [], _, _, best => best
  | d :: ds, i, bd, best =>
      if d < bd then argminAux ds (i + 1) d i else argminAux ds (i + 1) bd best

/-- Index of the first minimal entry of a distance list. -/
def argminIdx : List ℚ → ℕ
  | [] => 0
  | d :: ds => argminAux ds 1 d 0

/-- The cluster label of a point: the index of its nearest centroid. -/
def nearestCentroid (cs : List (List ℚ)) (x : List ℚ) : ℕ :=
  argminIdx (cs.map (sqDist x))

/-- Modelled from the spec: the clustering is performed by a library call
(`KMeans(n_clusters=5, random_state=42, n_init=10).fit_predict`), whose
internals are not part of the repository.  A linear congruential generator
stands in for the library's seeded pseudo-random stream; only determinism
matters to the properties below. -/
def lcg (s : ℕ) : ℕ := (1103515245 * s + 12345) % 2147483648

/-- Draw `count` data indices below `n` from the seeded stream. -/
def pickIndices : ℕ → ℕ → ℕ → List ℕ
  | 0, _, _ => []
  | count + 1, s, n => (lcg s % n) :: pickIndices count (lcg s) n

/-- Modelled from the spec: seeded centroid initialization — `k` data points
chosen by the deterministic seeded stream (§4.4; the library's exact
sampling scheme is not in the repository). -/
def initCentroids (seed k : ℕ) (X : List (List ℚ)) : List (List ℚ) :=
  (pickIndices k seed X.length).map (fun i => X.getD i [])

/-- Labels of all points under the given centroids. -/
def assignAll (cs : List (List ℚ)) (X : List (List ℚ)) : List ℕ :=
  X.map (nearestCentroid cs)

/-- The points currently assigned to cluster `j`. -/
def membersOf (X : List (List ℚ)) (labels : List ℕ) (j : ℕ) : List (List ℚ) :=
  (X.zip labels).filterMap (fun p => if p.2 = j then some p.1 else none)

/-- Mean of one coordinate over a set of points. -/
def dimMean (pts : List (List ℚ)) (d : ℕ) : ℚ :=
  ((pts.map (fun p => p.getD d 0)).sum) / (pts.length : ℚ)

/-- Component-wise mean of a set of points, of the given dimension. -/
def centroidOf (pts : List (List ℚ)) (dim : ℕ) : List ℚ :=
  (List.range dim).map (dimMean pts)

/-- Modelled from the spec: one centroid-update step of the iterative
partitioning (§4.4) — each centroid moves to the mean of its assigned
points; a centroid with no assigned points is kept unchanged. -/
def lloydStep (X : List (List ℚ)) (cs : List (List ℚ)) : List (List ℚ) :=
  let labels := assignAll cs X
  (List.range cs.length).map (fun j =>
    let pts := membersOf X labels j
    if pts.isEmpty then cs.getD j [] else centroidOf pts (cs.getD j []).length)

/-- Iterate centroid updates up to the iteration budget, stopping early at a
fixed point (the library's convergence test). -/
def lloydIter (X : List (List ℚ)) : ℕ → List (List ℚ) → List (List ℚ)
  | 0, cs => cs
  | fuel + 1, cs =>
      let cs' := lloydStep X cs
      if cs' = cs then cs else lloydIter X fuel cs'

/-- Total within-cluster sum of squared distances of a centroid set. -/
def inertia (X : List (List ℚ)) (cs : List (List ℚ)) : ℚ :=
  (X.map (fun x => sqDist x (cs.getD (nearestCentroid cs x) []))).sum

/-- One full clustering run from one seed. -/
def runCentroids (X : List (List ℚ)) (k seed iters : ℕ) : List (List ℚ) :=
  lloydIter X iters (initCentroids seed k X)

/-- Modelled from the spec: `n_init` restarts from derived seeds, keeping
the centroid set of lowest inertia (§4.4). -/
def bestCentroids (X : List (List ℚ)) (k seed nInit iters : ℕ) : List (List ℚ) :=
  ((List.range nInit).map (fun r => runCentroids X k (seed + r) iters)).foldl
    (fun best c => if inertia X c < inertia X best then c else best)
    (runCentroids X k seed iters)

/-- The engine's `fit_predict`: the library validates that the number of
samples is at least the number of clusters and raises otherwise; on success
every row is labelled with the index of its nearest final centroid. -/
def fitPredict (X : List (List ℚ)) (k seed nInit iters : ℕ) :
    Except String (List ℕ) :=
  if X.length < k then Except.error "n_samples should be >= n_clusters"
  else Except.ok (assignAll (bestCentroids X k seed nInit iters) X)

/-- The clustering pipeline of `create_clustering_visualization` /
`clustering_3d`: fill missing values with zero, standardize, then cluster
with `k = 5`, seed `42`, ten restarts and the default iteration budget. -/
def clusterLabels (sq : ℚ → ℚ) (X : List (List (Option ℚ))) :
    Except String (List ℕ) :=
  fitPredict (standardize sq (fillna X)) 5 42 10 300

/-- A yearly forecasting record: country, year, and the three risk inputs
(`incidents_momentum`, `incidents_volatility`, `prior_year_spike`). -/
structure YearRec where
  country : String
  year : ℤ
  momentum : ℚ
  volatility : ℚ
  spike : ℚ
deriving DecidableEq

/-- The risk score of one record. -/
def scoreOf (r : YearRec) : ℚ := riskScore r.momentum r.volatility r.spike

/-- The latest year present: `forecast_data['year'].max()`. -/
def latestYear : List YearRec → ℤ
  | [] => 0
  | r :: rs => (rs.map YearRec.year).foldl max r.year

/-- The rows that get a risk score: exactly the rows of the latest year,
paired with their original positions. -/
def latestScored (rs : List YearRec) : List (ℕ × YearRec) :=
  rs.enum.filter (fun p => decide (p.2.year = latestYear rs))

/-- The ranking order used by `nlargest`: higher score first, ties broken
by original position (the library's stable `keep='first'` selection). -/
def rankLE (a b : ℕ × YearRec) : Prop :=
  scoreOf b.2 < scoreOf a.2 ∨ (scoreOf a.2 = scoreOf b.2 ∧ a.1 ≤ b.1)

instance : DecidableRel rankLE := fun a b => by
  unfold rankLE
  exact inferInstance

instance : IsTotal (ℕ × YearRec) rankLE where
  total a b := by
    unfold rankLE
    rcases lt_trichotomy (scoreOf a.2) (scoreOf b.2) with h | h | h
    · exact Or.inr (Or.inl h)
    · rcases Nat.le_total a.1 b.1 with h' | h'
      · exact Or.inl (Or.inr ⟨h, h'⟩)
      · exact Or.inr (Or.inr ⟨h.symm, h'⟩)
    · exact Or.inl (Or.inl h)

instance : IsTrans (ℕ × YearRec) rankLE where
  trans a b c hab hbc := by
    unfold rankLE at *
    rcases hab with hab | ⟨hab, hab'⟩
    · rcases hbc with hbc | ⟨hbc, _⟩
      · exact Or.inl (hbc.trans hab)
      · exact Or.inl (hbc ▸ hab)
    · rcases hbc with hbc | ⟨hbc, hbc'⟩
      · exact Or.inl (hbc.trans_eq hab.symm)
      · exact Or.inr ⟨hab.trans hbc, hab'.trans hbc'⟩

/-- The top-`n` selection of `nlargest(n, 'risk_score')` over the
latest-year rows: stable descending sort by score, then the first `n`. -/
def topRisk (rs : List YearRec) (n : ℕ) : List (ℕ × YearRec) :=
  (List.insertionSort rankLE (latestScored rs)).take n

/-- Two-dimensional vector addition. -/
def addV (a b : ℚ × ℚ) : ℚ × ℚ := (a.1 + b.1, a.2 + b.2)

/-- Two-dimensional vector difference. -/
def subV (a b : ℚ × ℚ) : ℚ × ℚ := (a.1 - b.1, a.2 - b.2)

/-- Scalar multiple of a two-dimensional vector. -/
def smulV (c : ℚ) (a : ℚ × ℚ) : ℚ × ℚ := (c * a.1, c * a.2)

/-- Squared Euclidean norm of a two-dimensional vector. -/
def sqNorm (a : ℚ × ℚ) : ℚ := a.1 ^ 2 + a.2 ^ 2

/-- A fresh pseudo-random coordinate in `[0, 1)` from the seeded stream. -/
def randUnit (s : ℕ) : ℚ := ((lcg s % 1000 : ℕ) : ℚ) / 1000

/-- Modelled from the spec: seeded initial placement of the nodes — the
layout library draws the starting coordinates from a generator seeded with
the fixed seed (§4.2); its exact distribution is not in the repository. -/
def initPos (seed : ℕ) : List String → List (String × (ℚ × ℚ))
  | [] => []
  | n :: ns => (n, (randUnit seed, randUnit (lcg seed))) :: initPos (lcg (lcg seed)) ns

/-- The current position of a node (nodes absent from the table read as the
origin; this never happens for nodes of the graph). -/
def lookupPos (pos : List (String × (ℚ × ℚ))) (n : String) : ℚ × ℚ :=
  ((pos.find? (fun p => decide (p.1 = n))).map Prod.snd).getD (0, 0)

/-- Modelled from the spec: the net displacement of one node under the
spring model (§4.2) — repulsion from every other node scaled by the inverse
squared distance, attraction along incident arcs scaled by the distance
over the optimal spacing `k`.  The square root is the abstract `sq`. -/
def nodeDisp (sq : ℚ → ℚ) (k : ℚ) (g : DiGraph) (pos : List (String × (ℚ × ℚ)))
    (n : String) : ℚ × ℚ :=
  let p := lookupPos pos n
  let rep := pos.foldl (fun acc q =>
    if q.1 = n then acc
    else
      let d := subV p q.2
      if sqNorm d = 0 then acc else addV acc (smulV (k ^ 2 / sqNorm d) d)) (0, 0)
  g.edges.foldl (fun acc e =>
    if e.1.1 = n ∨ e.1.2 = n then
      let q := lookupPos pos (if e.1.1 = n then e.1.2 else e.1.1)
      let d := subV p q
      addV acc (smulV (-(sq (sqNorm d)) / k) d)
    else acc) rep

/-- One cooling step of the force-directed layout: every node moves along
its net displacement. -/
def layoutStep (sq : ℚ → ℚ) (k : ℚ) (g : DiGraph)
    (pos : List (String × (ℚ × ℚ))) : List (String × (ℚ × ℚ)) :=
  pos.map (fun p => (p.1, addV p.2 (smulV (1 / 10) (nodeDisp sq k g pos p.1))))

/-- The layout engine: `nx.spring_layout(G, k=…, iterations=…, seed=…)`,
modelled as the seeded deterministic iteration above. -/
def springLayout (sq : ℚ → ℚ) (g : DiGraph) (k : ℚ) (iters seed : ℕ) :
    List (String × (ℚ × ℚ)) :=
  (layoutStep sq k g)^[iters] (initPos seed g.nodes)

section ClusterLemmas

theorem argminAux_lt : ∀ (ds : List ℚ) (i : ℕ) (bd : ℚ) (best : ℕ),
    best < i → argminAux ds i bd best < i + ds.length
  | [], i, bd, best, h => by simpa [argminAux] using h
  | d :: ds, i, bd, best, h => by
      rw [argminAux]
      by_cases hd : d < bd
      · rw [if_pos hd]
        have h2 := argminAux_lt ds (i + 1) d i (Nat.lt_succ_self i)
        simp only [List.length_cons]
        omega
      · rw [if_neg hd]
        have h2 := argminAux_lt ds (i + 1) bd best (h.trans (Nat.lt_succ_self i))
        simp only [List.length_cons]
        omega

theorem argminIdx_lt_length (v : List ℚ) (h : v ≠ []) : argminIdx v < v.length := by
  match v, h with
  | d :: ds, _ =>
      rw [argminIdx]
      have h2 := argminAux_lt ds 1 d 0 Nat.zero_lt_one
      simpa [Nat.add_comm] using h2

theorem nearestCentroid_lt (cs : List (List ℚ)) (x : List ℚ) (h : cs ≠ []) :
    nearestCentroid cs x < cs.length := by
  have h2 := argminIdx_lt_length (cs.map (sqDist x)) (by simpa using h)
  simpa [nearestCentroid] using h2

theorem length_pickIndices (count : ℕ) : ∀ (s n : ℕ),
    (pickIndices count s n).length = count := by
  induction count with
  | zero => intro s n; rfl
  | succ c ih => intro s n; simp [pickIndices, ih]

theorem length_initCentroids (seed k : ℕ) (X : List (List ℚ)) :
    (initCentroids seed k X).length = k := by
  simp [initCentroids, length_pickIndices]

theorem length_lloydStep (X cs : List (List ℚ)) :
    (lloydStep X cs).length = cs.length := by
  simp [lloydStep]

theorem length_lloydIter (X : List (List ℚ)) : ∀ (fuel : ℕ) (cs : List (List ℚ)),
    (lloydIter X fuel cs).length = cs.length
  | 0, cs => rfl
  | fuel + 1, cs => by
      show (if lloydStep X cs = cs then cs
          else lloydIter X fuel (lloydStep X cs)).length = cs.length
      by_cases h : lloydStep X cs = cs
      · rw [if_pos h]
      · rw [if_neg h, length_lloydIter X fuel, length_lloydStep]

theorem length_runCentroids (X : List (List ℚ)) (k seed iters : ℕ) :
    (runCentroids X k seed iters).length = k := by
  rw [runCentroids, length_lloydIter, length_initCentroids]

theorem length_foldl_best (X : List (List ℚ)) (k : ℕ) :
    ∀ (l : List (List (List ℚ))) (acc : List (List ℚ)),
      acc.length = k → (∀ c ∈ l, c.length = k) →
      (l.foldl (fun best c => if inertia X c < inertia X best then c else best)
        acc).length = k
  | [], acc, hacc, _ => hacc
  | c :: l, acc, hacc, hl => by
      rw [List.foldl_cons]
      refine length_foldl_best X k l _ ?_
        (fun c' hc' => hl c' (List.mem_cons_of_mem _ hc'))
      by_cases h : inertia X c < inertia X acc
      · rw [if_pos h]
        exact hl c (List.mem_cons_self c l)
      · rw [if_neg h]
        exact hacc

theorem length_bestCentroids (X : List (List ℚ)) (k seed nInit iters : ℕ) :
    (bestCentroids X k seed nInit iters).length = k := by
  refine length_foldl_best X k _ _ (length_runCentroids X k seed iters) ?_
  intro c hc
  simp only [List.mem_map] at hc
  obtain ⟨r, _, rfl⟩ := hc
  exact length_runCentroids X k (seed + r) iters

end ClusterLemmas

section NormalizerLemmas

theorem meanQ_const (v : List ℚ) (c : ℚ) (hne : v ≠ []) (h : ∀ x ∈ v, x = c) :
    meanQ v = c := by
  have hsum : v.sum = (v.length : ℚ) * c := by
    rw [List.sum_eq_card_nsmul v c h, nsmul_eq_mul]
  have hlen : (v.length : ℚ) ≠ 0 := by
    have := List.length_pos.mpr hne
    exact_mod_cast this.ne'
  rw [meanQ, hsum, mul_comm, mul_div_assoc, div_self hlen, mul_one]

theorem varQ_const (v : List ℚ) (c : ℚ) (hne : v ≠ []) (h : ∀ x ∈ v, x = c) :
    varQ v = 0 := by
  rw [varQ]
  have hz : ∀ y ∈ v.map (fun x => (x - meanQ v) ^ 2), y = 0 := by
    intro y hy
    simp only [List.mem_map] at hy
    obtain ⟨x, hx, rfl⟩ := hy
    rw [h x hx, meanQ_const v c hne h, sub_self]
    ring
  rw [List.sum_eq_card_nsmul _ 0 hz, smul_zero, zero_div]

theorem stdRow_getD (sq : ℚ → ℚ) (X : List (List ℚ)) :
    ∀ (xs : List ℚ) (j0 i : ℕ),
      (stdRow sq X j0 xs).getD i 0 =
        if i < xs.length then
          (xs.getD i 0 - meanQ (colVals X (j0 + i))) / scaleQ sq (colVals X (j0 + i))
        else 0
  | [], j0, i => by simp [stdRow]
  | x :: xs, j0, 0 => by simp [stdRow]
  | x :: xs, j0, i + 1 => by
      rw [stdRow]
      rw [List.getD_cons_succ, stdRow_getD sq X xs (j0 + 1) i]
      have harith : j0 + 1 + i = j0 + (i + 1) := by omega
      rw [harith]
      simp [Nat.succ_lt_succ_iff]

end NormalizerLemmas

section RankingLemmas

theorem le_foldl_max : ∀ (l : List ℤ) (a : ℤ), a ≤ l.foldl max a
  | [], a => le_refl a
  | b :: l, a => le_trans (le_max_left a b) (le_foldl_max l (max a b))

theorem mem_le_foldl_max : ∀ (l : List ℤ) (a x : ℤ), x ∈ l → x ≤ l.foldl max a
  | [], _, x, hx => absurd hx (List.not_mem_nil x)
  | b :: l, a, x, hx => by
      rcases List.mem_cons.mp hx with rfl | hx'
      · exact le_trans (le_max_right a x) (le_foldl_max l (max a x))
      · exact mem_le_foldl_max l (max a b) x hx'

theorem foldl_max_mem : ∀ (l : List ℤ) (a : ℤ), l.foldl max a = a ∨ l.foldl max a ∈ l
  | [], a => Or.inl rfl
  | b :: l, a => by
      rw [List.foldl_cons]
      rcases foldl_max_mem l (max a b) with h | h
      · rcases max_choice a b with hm | hm
        · exact Or.inl (by rw [h, hm])
        · exact Or.inr (by rw [h, hm]; exact List.mem_cons_self b l)
      · exact Or.inr (List.mem_cons_of_mem b h)

end RankingLemmas

section LayoutLemmas

theorem map_fst_initPos : ∀ (seed : ℕ) (ns : List String),
    (initPos seed ns).map Prod.fst = ns
  | _, [] => rfl
  | seed, n :: ns => by simp [initPos, map_fst_initPos _ ns]

theorem map_fst_layoutStep (sq : ℚ → ℚ) (k : ℚ) (g : DiGraph)
    (pos : List (String × (ℚ × ℚ))) :
    (layoutStep sq k g pos).map Prod.fst = pos.map Prod.fst := by
  simp [layoutStep, List.map_map, Function.comp]

theorem map_fst_springLayout (sq : ℚ → ℚ) (g : DiGraph) (k : ℚ)
    (iters seed : ℕ) : (springLayout sq g k iters seed).map Prod.fst = g.nodes := by
  rw [springLayout]
  induction iters with
  | zero => simpa using map_fst_initPos seed g.nodes
  | succ m ih => rw [Function.iterate_succ_apply', map_fst_layoutStep]; exact ih

end LayoutLemmas

theorem fillna_entry (X : List (List (Option ℚ))) (i j : ℕ) :
    ((fillna X).getD i []).getD j 0 = ((X.getD i []).getD j none).getD 0 := by
  rw [fillna]
  rcases h : X[i]? with _ | row
  · simp [List.getD_eq_getElem?_getD, List.getElem?_map, h]
  · simp only [List.getD_eq_getElem?_getD, List.getElem?_map, h, Option.map_some',
      Option.getD_some]
    rcases h2 : row[j]? with _ | o <;>
      simp [List.getD_eq_getElem?_getD, List.getElem?_map, h2]

/-- C1 counterexample: with three rows and the fixed cluster count five, the
engine does not return labels — the library's sample-count validation
raises, so the original claim fails at this input. -/
theorem kmeans_three_rows_raises :
    fitPredict [[(0 : ℚ)], [1], [2]] 5 42 10 300 =
      Except.error "n_samples should be >= n_clusters" := rfl

/-- C1 (amended): for every feature matrix with at least five rows,
clustering with `k = 5` and seed `42` returns exactly one label per input
row, each label in `[0, 5)`; with fewer rows than clusters the engine
raises instead of returning labels. -/
theorem kmeans_labels_range (X : List (List ℚ)) (h : 5 ≤ X.length) :
    ∃ labels, fitPredict X 5 42 10 300 = Except.ok labels ∧
      labels.length = X.length ∧ ∀ l ∈ labels, l < 5 := by
  refine ⟨assignAll (bestCentroids X 5 42 10 300) X, ?_, ?_, ?_⟩
  · rw [fitPredict, if_neg (Nat.not_lt.mpr h)]
  · simp [assignAll]
  · intro l hl
    simp only [assignAll, List.mem_map] at hl
    obtain ⟨x, hx, rfl⟩ := hl
    have hlen := length_bestCentroids X 5 42 10 300
    have hne : bestCentroids X 5 42 10 300 ≠ [] := by
      intro hc
      rw [hc] at hlen
      exact absurd hlen.symm (by decide)
    have h2 := nearestCentroid_lt (bestCentroids X 5 42 10 300) x hne
    rwa [hlen] at h2

/-- C1 witness: a concrete five-row matrix satisfies the hypothesis and
receives one label below five per row. -/
theorem kmeans_labels_range_witness :
    ∃ labels, fitPredict [[(0 : ℚ)], [1], [2], [3], [4]] 5 42 10 300 =
        Except.ok labels ∧
      labels.length = ([[(0 : ℚ)], [1], [2], [3], [4]] : List (List ℚ)).length ∧
      ∀ l ∈ labels, l < 5 :=
  kmeans_labels_range _ (by decide)

/-- C2 counterexample: a self-loop edge above the threshold is inserted
into the built graph, so the original claim that no self-loop arc ever
appears fails at this input. -/
theorem selfloop_arc_present :
    (build [⟨"A", "A", 10, 1, 1⟩] 5).hasArc "A" "A" = true := by decide

/-- C2 (amended): the builder performs no self-loop filtering — every input
edge whose source equals its target and whose weight exceeds the threshold
contributes an arc from that node to itself. -/
theorem build_inserts_selfloops (edges : List SpillEdge) (w : ℚ) (e : SpillEdge)
    (he : e ∈ edges) (hst : e.source = e.target) (hw : w < e.weight) :
    (build edges w).hasArc e.source e.source = true := by
  rw [hasArc_build_iff]
  exact ⟨e, he, rfl, hst.symm, hw⟩

/-- C2 witness: a concrete self-loop above the threshold, via the amended
theorem. -/
theorem build_inserts_selfloops_witness :
    (build [⟨"B", "B", 7, 2, 3⟩] 5).hasArc "B" "B" = true :=
  build_inserts_selfloops _ 5 ⟨"B", "B", 7, 2, 3⟩ (List.mem_cons_self _ _) rfl
    (by decide)

/-- C3 counterexample: an edge with negative weight above the (negative)
threshold is inserted silently — no `InvalidInput` condition exists in the
builder, so the original claim fails at this input. -/
theorem negative_weight_inserted_silently :
    (build [⟨"A", "B", -1, 0, 0⟩] (-10)).hasArc "A" "B" = true := by decide

/-- C3 (amended): `build` is total and never signals any condition; an arc
is present exactly when some input edge with those endpoints exceeds the
minimum-weight threshold, negative weights included. -/
theorem build_never_raises (edges : List SpillEdge) (w : ℚ) (s t : String) :
    (build edges w).hasArc s t = true ↔
      ∃ e ∈ edges, e.source = s ∧ e.target = t ∧ w < e.weight :=
  hasArc_build_iff edges w s t

/-- C4: the node set of the built graph is exactly the set of endpoints of
edges whose weight strictly exceeds the threshold, and when no edge passes
the threshold the result is the empty graph. -/
theorem build_nodes_exact (edges : List SpillEdge) (w : ℚ) :
    (∀ m, m ∈ (build edges w).nodes ↔
        ∃ e ∈ edges, w < e.weight ∧ (m = e.source ∨ m = e.target)) ∧
    ((∀ e ∈ edges, ¬ w < e.weight) → build edges w = DiGraph.empty) := by
  refine ⟨mem_nodes_build edges w, ?_⟩
  intro h
  rw [build]
  have hr : retained edges w = [] := by
    rw [retained, List.filter_eq_nil_iff]
    intro e he
    simpa using h e he
  rw [hr]
  rfl

/-- C4 witness: with a single under-threshold edge the built graph is
empty. -/
theorem build_nodes_exact_witness :
    build [⟨"B", "C", 3, 1, 1⟩] 5 = DiGraph.empty :=
  (build_nodes_exact _ 5).2 (by decide)

/-- C5: the risk score is the fixed linear weighting
`0.4 * momentum + 0.3 * volatility + 0.3 * prior_year_spike`, with value
`1` at `(1, 1, 1)` and `0` at `(0, 0, 0)`. -/
theorem riskScore_formula :
    (∀ m v s : ℚ, riskScore m v s = 0.4 * m + 0.3 * v + 0.3 * s) ∧
    riskScore 1 1 1 = 1 ∧ riskScore 0 0 0 = 0 := by
  refine ⟨fun m v s => by rw [riskScore]; ring, ?_, ?_⟩
  · rw [riskScore]; norm_num
  · rw [riskScore]; norm_num

/-- C6: a feature column that is constant across all rows standardizes to
zero in every row, and its scale denominator is the guard value `1`, never
the zero standard deviation. -/
theorem standardize_const_column (sq : ℚ → ℚ) (X : List (List ℚ)) (j : ℕ)
    (c : ℚ) (hne : X ≠ []) (hconst : ∀ row ∈ X, row.getD j 0 = c) :
    (∀ row ∈ standardize sq X, row.getD j 0 = 0) ∧
      scaleQ sq (colVals X j) = 1 := by
  have hcol : ∀ y ∈ colVals X j, y = c := by
    intro y hy
    simp only [colVals, List.mem_map] at hy
    obtain ⟨r, hr, rfl⟩ := hy
    exact hconst r hr
  have hcolne : colVals X j ≠ [] := by
    simp only [colVals, ne_eq, List.map_eq_nil_iff]
    exact hne
  have hvar : varQ (colVals X j) = 0 := varQ_const _ c hcolne hcol
  have hscale : scaleQ sq (colVals X j) = 1 := by rw [scaleQ, if_pos hvar]
  refine ⟨?_, hscale⟩
  intro row hrow
  simp only [standardize, List.mem_map] at hrow
  obtain ⟨r, hr, rfl⟩ := hrow
  rw [stdRow_getD]
  by_cases hj : j < r.length
  · rw [if_pos hj]
    simp only [Nat.zero_add]
    rw [hconst r hr, meanQ_const _ c hcolne hcol, sub_self, zero_div]
  · rw [if_neg hj]

/-- C6 witness: a concrete constant column standardizes to zeros with scale
one. -/
theorem standardize_const_column_witness :
    (∀ row ∈ standardize (fun q => q) [[(3 : ℚ)], [3]], row.getD 0 0 = 0) ∧
      scaleQ (fun q => q) (colVals [[(3 : ℚ)], [3]] 0) = 1 :=
  standardize_const_column (fun q => q) [[(3 : ℚ)], [3]] 0 3 (by decide)
    (by decide)

/-- C7: the layout is a deterministic function of the graph and the fixed
seed — two calls with seed `42` agree on every coordinate — and it returns
a position for exactly the nodes of the graph, in order. -/
theorem springLayout_deterministic (sq : ℚ → ℚ) (g : DiGraph) (k : ℚ)
    (iters : ℕ) :
    springLayout sq g k iters 42 = springLayout sq g k iters 42 ∧
    (springLayout sq g k iters 42).map Prod.fst = g.nodes :=
  ⟨rfl, map_fst_springLayout sq g k iters 42⟩

/-- C8: arcs are stored under distinct ordered pairs, and the attributes of
the arc for a pair are those of the last retained occurrence of that pair
(last-write-wins), never a sum of occurrences. -/
theorem build_last_write_wins (edges : List SpillEdge) (w : ℚ) (s t : String) :
    (((build edges w).edges).map Prod.fst).Nodup ∧
    (build edges w).findAttr s t =
      ((retained edges w).filter (arcMatch s t)).getLast?.map attrsOf :=
  ⟨nodup_keys_build edges w, findAttr_build edges w s t⟩

/-- C9: the normalizer input replaces every missing feature value with `0`
(never the column mean, never by dropping the row): row count is preserved
through fill and standardization, missing entries become `0` and present
entries are kept as they are. -/
theorem fillna_policy (sq : ℚ → ℚ) (X : List (List (Option ℚ))) :
    (fillna X).length = X.length ∧
    (standardize sq (fillna X)).length = X.length ∧
    (∀ i j, (X.getD i []).getD j none = none →
      ((fillna X).getD i []).getD j 0 = 0) ∧
    (∀ i j v, (X.getD i []).getD j none = some v →
      ((fillna X).getD i []).getD j 0 = v) := by
  refine ⟨by simp [fillna], by simp [standardize, fillna], ?_, ?_⟩
  · intro i j h
    rw [fillna_entry, h]
    rfl
  · intro i j v h
    rw [fillna_entry, h]
    rfl

/-- C9 witness: a concrete missing entry becomes `0`. -/
theorem fillna_policy_witness :
    ((fillna [[some (1 : ℚ), none]]).getD 0 []).getD 1 0 = 0 :=
  (fillna_policy (fun q => q) [[some (1 : ℚ), none]]).2.2.1 0 1 (by decide)

/-- C10: for every non-empty yearly-record set, the scored rows are exactly
the rows whose year is the maximum year present, and the top-`n` selection
is sorted by score descending with ties broken by original position. -/
theorem latest_year_scoring (rs : List YearRec) (n : ℕ) (hne : rs ≠ []) :
    (∃ r ∈ rs, r.year = latestYear rs) ∧
    (∀ r ∈ rs, r.year ≤ latestYear rs) ∧
    (∀ p : ℕ × YearRec,
      p ∈ latestScored rs ↔ p ∈ rs.enum ∧ p.2.year = latestYear rs) ∧
    List.Sorted rankLE (topRisk rs n) ∧
    (topRisk rs n).length = min n (latestScored rs).length ∧
    (∀ p ∈ topRisk rs n, p ∈ latestScored rs) := by
  refine ⟨?_, ?_, ?_, ?_, ?_, ?_⟩
  · match rs, hne with
    | r :: rs', _ =>
        rcases foldl_max_mem (rs'.map YearRec.year) r.year with h | h
        · exact ⟨r, List.mem_cons_self r rs', h.symm⟩
        · simp only [List.mem_map] at h
          obtain ⟨r', hr', hy⟩ := h
          exact ⟨r', List.mem_cons_of_mem r hr', hy⟩
  · match rs, hne with
    | r :: rs', _ =>
        intro x hx
        rcases List.mem_cons.mp hx with rfl | hx'
        · exact le_foldl_max (rs'.map YearRec.year) x.year
        · exact mem_le_foldl_max _ _ _ (List.mem_map_of_mem YearRec.year hx')
  · intro p
    simp [latestScored, List.mem_filter]
  · exact (List.sorted_insertionSort rankLE (latestScored rs)).sublist
      (List.take_sublist n _)
  · show ((List.insertionSort rankLE (latestScored rs)).take n).length = _
    rw [List.length_take, (List.perm_insertionSort rankLE (latestScored rs)).length_eq]
  · intro p hp
    have hp2 : p ∈ List.insertionSort rankLE (latestScored rs) :=
      List.mem_of_mem_take hp
    exact (List.perm_insertionSort rankLE (latestScored rs)).mem_iff.mp hp2

/-- C10 witness: a concrete two-year record set has a row of the maximum
year. -/
theorem latest_year_scoring_witness :
    ∃ r ∈ ([⟨"A", 2023, 1, 0, 0⟩, ⟨"B", 2022, 2, 0, 0⟩] : List YearRec),
      r.year = latestYear [⟨"A", 2023, 1, 0, 0⟩, ⟨"B", 2022, 2, 0, 0⟩] :=
  (latest_year_scoring _ 15 (List.cons_ne_nil _ _)).1

end Dashboard
